import Mathlib

/-!
Verification of the piday repository (src/piday2023.py and src/asciipi.py).

The development shallowly embeds the Python sources in Lean:

* Python `decimal.Decimal` values under a context of precision `prec`
  (rounding `ROUND_HALF_EVEN`, the default) are modelled by the structure
  `Dec`: a signed integer coefficient together with a decimal exponent,
  exactly as CPython's `_pydecimal.py` stores them.  The arithmetic
  operations mirror `_pydecimal.py`: every operation computes an exact
  (or sticky-adjusted) coefficient and then applies `_fix`, which rounds
  half-even to `prec` significant digits.  The context limits
  `Emin`/`Emax` (±999999 by default) are never reached by the programs
  under study and are not modelled.
* Python strings are modelled as `List Char`.
* Loops with a statically bounded iteration count are structural
  recursions; `while` loops take a fuel parameter and return `Option`.
-/

namespace Piday

/-- Decimal number: value `c * 10 ^ e`.  Python's `_pydecimal` stores a
sign, a coefficient digit-string and an exponent; a signed integer
coefficient carries the same information for finite non-special values. -/
structure Dec where
  c : Int
  e : Int
  deriving DecidableEq, Repr

/-- Little-endian base-10 digits, computed with a structural fuel
(first argument).  The fuel only bounds the recursion depth; recursion
stops as soon as the number reaches 0. -/
def natDigitsAux : Nat → Nat → List Nat
  | 0, _ => []
  | f + 1, n => if n = 0 then [] else n % 10 :: natDigitsAux f (n / 10)

/-- Little-endian base-10 digits of `n` (empty for 0). -/
def natDigits (n : Nat) : List Nat := natDigitsAux (n + 1) n

/-- `len(str(coefficient))` for a nonnegative integer coefficient:
number of decimal digits, with `0` written as `"0"` (one digit). -/
def pyLen (n : Nat) : Nat := max 1 (natDigits n).length

/-- Round-half-even decision (`_round_half_even` in `_pydecimal.py`):
when the digits being dropped have value `r` out of `pow10d = 10 ^ d`,
round the kept coefficient `keep` up iff the dropped part exceeds half,
or equals half exactly and `keep` is odd. -/
def halfEvenUp (keep r pow10d : Nat) : Bool :=
  if 2 * r > pow10d then true
  else if 2 * r < pow10d then false
  else keep % 2 = 1

/-- `Decimal._fix` for a context of precision `prec` with rounding
`ROUND_HALF_EVEN` and unbounded exponent range: if the coefficient has
more than `prec` digits, drop the excess digits rounding half-even; a
carry that lengthens the coefficient (`99…9 → 100…0`) sheds its trailing
zero and bumps the exponent. -/
def fix (prec : Nat) (x : Dec) : Dec :=
  if x.c = 0 then x
  else
    let s : Int := if x.c < 0 then -1 else 1
    let a := x.c.natAbs
    let L := pyLen a
    if L ≤ prec then x
    else
      let d := L - prec
      let p10 := 10 ^ d
      let q := a / p10
      let r := a % p10
      let q' := if halfEvenUp q r p10 then q + 1 else q
      if pyLen q' > prec then ⟨s * (q' / 10 : Nat), x.e + d + 1⟩
      else ⟨s * (q' : Int), x.e + d⟩

/-- Exact `Decimal(int)` construction (the constructor does not round). -/
def decOfInt (n : Int) : Dec := ⟨n, 0⟩

/-- `Decimal.__add__`: align both operands at the smaller exponent, add
exactly, then round.  (`_pydecimal` replaces a vastly smaller operand by
a sticky epsilon before adding; that shortcut provably yields the same
result as the exact sum after half-even rounding, because the epsilon is
below a tenth of an ulp of the larger operand and so can neither create
nor destroy a rounding tie.) -/
def decAdd (prec : Nat) (x y : Dec) : Dec :=
  let e := min x.e y.e
  let cx := x.c * (10 : Int) ^ (x.e - e).toNat
  let cy := y.c * (10 : Int) ^ (y.e - e).toNat
  fix prec ⟨cx + cy, e⟩

/-- `Decimal.__sub__`: addition of the (exactly) negated operand. -/
def decSub (prec : Nat) (x y : Dec) : Dec :=
  decAdd prec x ⟨-y.c, y.e⟩

/-- `Decimal.__mul__`: exact product of coefficients, sum of exponents,
then round. -/
def decMul (prec : Nat) (x y : Dec) : Dec :=
  fix prec ⟨x.c * y.c, x.e + y.e⟩

/-- The trailing-zero stripping loop of `Decimal.__truediv__`'s exact
branch: divide the coefficient by 10 while the exponent is below the
ideal exponent and the coefficient ends in 0.  Structural fuel bounds
the number of strips (at most the digit count of the coefficient). -/
def stripZeros : Nat → Nat → Int → Int → Nat × Int
  | 0, q, e, _ => (q, e)
  | f + 1, q, e, ideal =>
    if e < ideal ∧ q % 10 = 0 then stripZeros f (q / 10) (e + 1) ideal
    else (q, e)

/-- `Decimal.__truediv__`: produce a `prec + 1` digit quotient; if the
division is inexact, nudge a quotient ending in 0 or 5 so that the final
half-even rounding is correct (the sticky trick of `_pydecimal.py`); if
it is exact, strip trailing zeros down toward the ideal exponent.  Then
round to `prec` digits.  Division by zero never occurs in the embedded
programs; it is mapped to `⟨0, 0⟩`. -/
def decDiv (prec : Nat) (x y : Dec) : Dec :=
  if y.c = 0 then ⟨0, 0⟩
  else if x.c = 0 then fix prec ⟨0, x.e - y.e⟩
  else
    let s : Int := if decide (x.c < 0) = decide (y.c < 0) then 1 else -1
    let a := x.c.natAbs
    let b := y.c.natAbs
    let shift : Int := (pyLen b : Int) - (pyLen a : Int) + prec + 1
    let e := x.e - y.e - shift
    let qr : Nat × Nat :=
      if 0 ≤ shift then ((a * 10 ^ shift.toNat) / b, (a * 10 ^ shift.toNat) % b)
      else (a / (b * 10 ^ (-shift).toNat), a % (b * 10 ^ (-shift).toNat))
    if qr.2 ≠ 0 then
      let q' := if qr.1 % 5 = 0 then qr.1 + 1 else qr.1
      fix prec ⟨s * (q' : Int), e⟩
    else
      let ideal := x.e - y.e
      let qe := stripZeros (pyLen qr.1) qr.1 e ideal
      fix prec ⟨s * (qe.1 : Int), qe.2⟩

/-- The Newton floor-square-root loop of `Decimal.sqrt`
(`n = 10**prec; while True: q = c//n; if n <= q: break; n = n+q >> 1`),
with a structural fuel bounding the iteration count.  Starting from
`10 ^ prec ≥ √c` the iterate decreases toward `⌊√c⌋` and the fuel passed
by `decSqrt` is far larger than the number of steps ever taken. -/
def isqrtLoop : Nat → Nat → Nat → Nat
  | 0, _, n => n
  | f + 1, c, n =>
    let q := c / n
    if n ≤ q then n else isqrtLoop f c ((n + q) / 2)

/-- `Decimal.sqrt` for a nonnegative argument: write the operand as
`c * 100 ^ e`, rescale `c` to exactly `prec + 1` base-100 digits, take
the integer square root, apply the sticky adjustment on an inexact last
digit 0 or 5, and round half-even to `prec` digits; an exact root is
rescaled back to the ideal exponent `⌊exp / 2⌋`. -/
def decSqrt (prec0 : Nat) (x : Dec) : Dec :=
  if x.c = 0 then ⟨0, Int.fdiv x.e 2⟩
  else
    let prec := prec0 + 1
    let a := x.c.natAbs
    let L := pyLen a
    let e0 := Int.fdiv x.e 2
    let cl : Nat × Nat :=
      if x.e % 2 ≠ 0 then (a * 10, L / 2 + 1) else (a, (L + 1) / 2)
    let shift : Int := (prec : Int) - cl.2
    let cex : Nat × Bool :=
      if 0 ≤ shift then (cl.1 * 100 ^ shift.toNat, true)
      else (cl.1 / 100 ^ (-shift).toNat, cl.1 % 100 ^ (-shift).toNat = 0)
    let e1 := e0 - shift
    let n := isqrtLoop (8 * prec + 64) cex.1 (10 ^ prec)
    if cex.2 ∧ n * n = cex.1 then
      let n' := if 0 ≤ shift then n / 10 ^ shift.toNat else n * 10 ^ (-shift).toNat
      fix prec0 ⟨(n' : Int), e1 + shift⟩
    else
      let n' := if n % 5 = 0 then n + 1 else n
      fix prec0 ⟨(n' : Int), e1⟩

/-- Value comparison `x == y` (Python compares decimal values, not
representations). -/
def decEqv (x y : Dec) : Bool :=
  let e := min x.e y.e
  decide (x.c * (10 : Int) ^ (x.e - e).toNat = y.c * (10 : Int) ^ (y.e - e).toNat)

/-- Value comparison `x < y`. -/
def decLt (x y : Dec) : Bool :=
  let e := min x.e y.e
  decide (x.c * (10 : Int) ^ (x.e - e).toNat < y.c * (10 : Int) ^ (y.e - e).toNat)

/-- `Decimal.__int__`: truncation toward zero. -/
def decInt (x : Dec) : Int :=
  if 0 ≤ x.e then x.c * (10 : Int) ^ x.e.toNat
  else (if x.c < 0 then -1 else 1) * ((x.c.natAbs / 10 ^ (-x.e).toNat : Nat) : Int)

/-- Character for a single decimal digit. -/
def digitChar (d : Nat) : Char := Char.ofNat (48 + d)

/-- Decimal digit string of a nonnegative integer (`"0"` for 0). -/
def digitsStr (n : Nat) : List Char :=
  if n = 0 then ['0'] else ((natDigits n).reverse.map digitChar)

/-- `str(i)` for a Python integer. -/
def intStr (i : Int) : List Char :=
  (if i < 0 then ['-'] else []) ++ digitsStr i.natAbs

/-- `"%+d" % k`: signed decimal rendering with an explicit plus sign. -/
def signedIntStr (k : Int) : List Char :=
  (if k < 0 then ['-'] else ['+']) ++ digitsStr k.natAbs

/-- `Decimal.__str__` for finite values (capitals context default, hence
`E`): fixed-point notation when `exp ≤ 0` and the adjusted exponent is
at least −6, scientific notation with one leading digit otherwise. -/
def decStr (x : Dec) : List Char :=
  let sign : List Char := if x.c < 0 then ['-'] else []
  let ds := digitsStr x.c.natAbs
  let leftdigits : Int := x.e + ds.length
  let dotplace : Int := if x.e ≤ 0 ∧ leftdigits > -6 then leftdigits else 1
  let intpart : List Char :=
    if dotplace ≤ 0 then ['0']
    else if dotplace ≥ (ds.length : Int) then
      ds ++ List.replicate (dotplace - ds.length).toNat '0'
    else ds.take dotplace.toNat
  let fracpart : List Char :=
    if dotplace ≤ 0 then '.' :: (List.replicate (-dotplace).toNat '0' ++ ds)
    else if dotplace ≥ (ds.length : Int) then []
    else '.' :: ds.drop dotplace.toNat
  let exppart : List Char :=
    if leftdigits = dotplace then [] else 'E' :: signedIntStr (leftdigits - dotplace)
  sign ++ intpart ++ fracpart ++ exppart

/-! ### `decimal_atan2` (src/piday2023.py, lines 139-176) -/

/-- Loop state of `decimal_atan2`.  `sign` and `n` are Python machine
integers in the source (`n` is converted exactly when used as a decimal
divisor); `oldTotal` is `None` before the first iteration. -/
structure AtanState where
  xp : Dec
  yp : Dec
  x2 : Dec
  y2 : Dec
  posTotal : Dec
  negTotal : Dec
  sgn : Int
  n : Int
  oldTotal : Option Dec
  total : Dec
  deriving DecidableEq, Repr

/-- Initial state of the `decimal_atan2` loop, after the
`if x is None: y, x = Decimal(1), y` substitution has been resolved:
`y` and `x` here are the numerator and denominator actually used. -/
def atanInit (prec : Nat) (y x : Dec) : AtanState :=
  { xp := x, yp := y
    x2 := decMul prec x x, y2 := decMul prec y y
    posTotal := ⟨0, 0⟩, negTotal := ⟨0, 0⟩
    sgn := 1, n := 1
    oldTotal := none, total := ⟨0, 0⟩ }

/-- One iteration of the `while old_total != total` body of
`decimal_atan2`. -/
def atanStep (prec : Nat) (s : AtanState) : AtanState :=
  let term := decDiv prec s.yp s.xp
  let posTotal :=
    if 0 < s.sgn then decAdd prec s.posTotal (decDiv prec term (decOfInt s.n))
    else s.posTotal
  let negTotal :=
    if 0 < s.sgn then s.negTotal
    else decAdd prec s.negTotal (decDiv prec term (decOfInt s.n))
  let total := decSub prec posTotal negTotal
  { xp := decMul prec s.xp s.x2, yp := decMul prec s.yp s.y2
    x2 := s.x2, y2 := s.y2
    posTotal := posTotal, negTotal := negTotal
    sgn := -s.sgn, n := s.n + 2
    oldTotal := some s.total, total := total }

/-- `old_total != total`: `None` compares unequal to any decimal;
decimals compare by value. -/
def atanCond (s : AtanState) : Bool :=
  match s.oldTotal with
  | none => true
  | some t => !decEqv t s.total

/-- The `while old_total != total` loop, with fuel; returns the final
state and the number of iterations executed. -/
def atanLoop (prec : Nat) : Nat → AtanState → Option (AtanState × Nat)
  | fuel, s =>
    if atanCond s then
      match fuel with
      | 0 => none
      | f + 1 =>
        match atanLoop prec f (atanStep prec s) with
        | none => none
        | some (s', j) => some (s', j + 1)
    else some (s, 0)

/-- State after `k` iterations of the loop body, ignoring the stopping
condition. -/
def atanIter (prec : Nat) (y x : Dec) (k : Nat) : AtanState :=
  (atanStep prec)^[k] (atanInit prec y x)

/-- `decimal_atan2(y, x)` at working precision `prec`: arctangent of
`y/x`, or of `1/y` when `x` is omitted (`none`).  Returns `none` when
the fuel is exhausted before the fixed point is reached. -/
def decimal_atan2 (fuel prec : Nat) (y : Dec) (x : Option Dec) : Option Dec :=
  let yx : Dec × Dec :=
    match x with
    | none => (⟨1, 0⟩, y)
    | some x => (y, x)
  match atanLoop prec fuel (atanInit prec yx.1 yx.2) with
  | none => none
  | some (s, _) => some s.total

/-! ### `compute_pi_machin` (src/piday2023.py, lines 89-103) -/

/-- Outcome of `compute_pi_machin`: a result string, a failed
`assert`, or insufficient fuel for the arctangent loops. -/
inductive MachinOutcome where
  | ok (s : List Char)
  | assertionError
  | outOfFuel
  deriving DecidableEq, Repr

/-- The integer `pi_int = int(pi * 10**(precision+2))` computed by
`compute_pi_machin` before its digit-string post-processing, where
`pi = 4 * (4 * decimal_atan2(Decimal(5)) - decimal_atan2(Decimal(239)))`
at working precision `precision + 4`. -/
def machinPiInt (fuel p : Nat) : Option Int :=
  let prec := p + 4
  match decimal_atan2 fuel prec ⟨5, 0⟩ none, decimal_atan2 fuel prec ⟨239, 0⟩ none with
  | some at5, some at239 =>
    let pi := decMul prec (decOfInt 4) (decSub prec (decMul prec (decOfInt 4) at5) at239)
    some (decInt (decMul prec pi (decOfInt ((10 : Int) ^ (p + 2)))))
  | _, _ => none

/-- `compute_pi_machin(precision)`: slice `str(pi_int)` to
`precision + 1` characters, `assert` the sliced length, and format
`pi_str[0] + "." + pi_str[1:]`. -/
def compute_pi_machin (fuel p : Nat) : MachinOutcome :=
  match machinPiInt fuel p with
  | none => .outOfFuel
  | some piInt =>
    let piStr := (intStr piInt).take (p + 1)
    if piStr.length = p + 1 then .ok (piStr.take 1 ++ '.' :: piStr.drop 1)
    else .assertionError

/-! ### BBP summation (src/piday2023.py lines 59-86 and
src/asciipi.py lines 10-31) -/

/-- One BBP bracket
`4/(8k+1) - 2/(8k+4) - 1/(8k+5) - 1/(8k+6)` evaluated left to right in
context arithmetic. -/
def bbpTerm (prec k : Nat) : Dec :=
  let term1 := decDiv prec (decOfInt 4) (decOfInt (8 * k + 1))
  let term2 := decDiv prec (decOfInt 2) (decOfInt (8 * k + 4))
  let term3 := decDiv prec (decOfInt 1) (decOfInt (8 * k + 5))
  let term4 := decDiv prec (decOfInt 1) (decOfInt (8 * k + 6))
  decSub prec (decSub prec (decSub prec term1 term2) term3) term4

/-- One iteration of the BBP summation loop at index `k`: add
`term / 16**k` to the running sum and truncate the scaled sum to an
integer.  Returns the new `(pi, pi_int)`. -/
def bbpBody (prec : Nat) (scale : Int) (k : Nat) (pi : Dec) : Dec × Int :=
  let pi' := decAdd prec pi (decDiv prec (bbpTerm prec k) (decOfInt ((16 : Int) ^ k)))
  (pi', decInt (decMul prec pi' (decOfInt scale)))

/-- `for k in range(start, start+m): … if pi_int == old_pi_int: break`.
Runs at most `m` iterations starting at index `start` from running sum
`pi` and previous truncation `piInt`; returns the final `(pi, pi_int)`
and the number of iterations executed. -/
def bbpRun (prec : Nat) (scale : Int) : Nat → Nat → Dec → Int → Dec × Int × Nat
  | 0, _, pi, piInt => (pi, piInt, 0)
  | m + 1, start, pi, piInt =>
    let pb := bbpBody prec scale start pi
    if pb.2 = piInt then (pb.1, pb.2, 1)
    else
      let rest := bbpRun prec scale m (start + 1) pb.1 pb.2
      (rest.1, rest.2.1, rest.2.2 + 1)

/-- `pi_int` after `j` iterations of the BBP loop body, ignoring the
break (with `bbpSeq … 0 = 0`, the initial value of `pi_int`). -/
def bbpSeq (prec : Nat) (scale : Int) : Nat → Dec × Int
  | 0 => (⟨0, 0⟩, 0)
  | j + 1 => bbpBody prec scale j (bbpSeq prec scale j).1

/-- `compute_pi_bbp(precision)` (src/piday2023.py): working precision
and iteration bound `precision + 4`, scale `10**(precision+4)`, result
`(pi_str[0] + "." + pi_str[1:])[:precision+2]`. -/
def compute_pi_bbp (p : Nat) : List Char :=
  let run := bbpRun (p + 4) ((10 : Int) ^ (p + 4)) (p + 4) 0 ⟨0, 0⟩ 0
  let s := intStr run.2.1
  (s.take 1 ++ '.' :: s.drop 1).take (p + 2)

/-- Number of iterations the `compute_pi_bbp(precision)` loop executes. -/
def bbpIters (p : Nat) : Nat :=
  (bbpRun (p + 4) ((10 : Int) ^ (p + 4)) (p + 4) 0 ⟨0, 0⟩ 0).2.2

/-- `compute_pi(precision)` of src/asciipi.py: the same BBP summation
with working precision `precision + 2`, scale `10**precision`,
iteration bound `precision`, and no final truncation. -/
def asciipi_compute_pi (p : Nat) : List Char :=
  let run := bbpRun (p + 2) ((10 : Int) ^ p) p 0 ⟨0, 0⟩ 0
  let s := intStr run.2.1
  s.take 1 ++ '.' :: s.drop 1

/-- Number of iterations the asciipi `compute_pi(precision)` loop
executes. -/
def asciipiIters (p : Nat) : Nat :=
  (bbpRun (p + 2) ((10 : Int) ^ p) p 0 ⟨0, 0⟩ 0).2.2

/-! ### `compute_pi_agm` (src/piday2023.py, lines 106-136) -/

/-- State of the AGM iteration: `(a, g, z, n)` plus the previous and
current π estimates (`old_pi` starts as Python `None`/int `0`; both are
replaced before the first comparison, after 18 warm-up iterations). -/
structure AgmState where
  a : Dec
  g : Dec
  z : Dec
  n : Dec
  oldPi : Dec
  pi : Dec
  deriving DecidableEq, Repr

/-- The exact decimal literal `Decimal('0.5')`. -/
def half : Dec := ⟨5, -1⟩

/-- The nested `iterate()` closure of `compute_pi_agm`:
`x = [(a+g)*half, (a*g).sqrt()]; var = x[0]-a; z -= var*var*n; n += n;
a, g = x; old_pi, pi = pi, a*a/z`. -/
def agmIterate (prec : Nat) (s : AgmState) : AgmState :=
  let x0 := decMul prec (decAdd prec s.a s.g) half
  let x1 := decSqrt prec (decMul prec s.a s.g)
  let var := decSub prec x0 s.a
  let z' := decSub prec s.z (decMul prec (decMul prec var var) s.n)
  let n' := decAdd prec s.n s.n
  { a := x0, g := x1, z := z', n := n', oldPi := s.pi
    pi := decDiv prec (decMul prec x0 x0) z' }

/-- Initial AGM state: `a = n = 1`, `g = 1 / Decimal(2).sqrt()`,
`z = Decimal('0.25')`, `old_pi, pi = None, 0`. -/
def agmInit (prec : Nat) : AgmState :=
  { a := ⟨1, 0⟩, g := decDiv prec ⟨1, 0⟩ (decSqrt prec ⟨2, 0⟩)
    z := ⟨25, -2⟩, n := ⟨1, 0⟩, oldPi := ⟨0, 0⟩, pi := ⟨0, 0⟩ }

/-- The `while old_pi - pi > epsilon: iterate()` loop, with fuel. -/
def agmLoop (prec : Nat) (eps : Dec) : Nat → AgmState → Option AgmState
  | fuel, s =>
    if decLt eps (decSub prec s.oldPi s.pi) then
      match fuel with
      | 0 => none
      | f + 1 => agmLoop prec eps f (agmIterate prec s)
    else some s

/-- `epsilon = Decimal(10)**(-precision) / Decimal(2)`.
`Decimal(10)**(-p)` is the exactly representable `1E-p` (a one-digit
coefficient, so the context power returns it exactly). -/
def agmEpsilon (prec p : Nat) : Dec :=
  decDiv prec ⟨1, -(p : Int)⟩ ⟨2, 0⟩

/-- `compute_pi_agm(precision)`: working precision `precision + 3`,
18 warm-up iterations, epsilon-guarded loop, result
`str(pi)[:precision+2]`. -/
def compute_pi_agm (fuel p : Nat) : Option (List Char) :=
  let prec := p + 3
  let warm := (agmIterate prec)^[18] (agmInit prec)
  match agmLoop prec (agmEpsilon prec p) fuel warm with
  | none => none
  | some s => some ((decStr s.pi).take (p + 2))

/-! ### Ink predicates (src/piday2023.py lines 194-195 and
src/asciipi.py lines 39-40) -/

/-- Python truthiness of a pixel value (an `int` from `getdata()`). -/
def truthy (pixel : Nat) : Bool := pixel != 0

/-- `need_digit` of src/piday2023.py:
`1 if pixel and inverted or not (pixel or inverted) else 0`. -/
def need_digit (inverted : Bool) (pixel : Nat) : Bool :=
  (truthy pixel && inverted) || !(truthy pixel || inverted)

/-- `need_digit` of src/asciipi.py:
`1 if pixel and not inverted or not pixel and inverted else 0`. -/
def asciipi_need_digit (inverted : Bool) (pixel : Nat) : Bool :=
  (truthy pixel && !inverted) || (!truthy pixel && inverted)

/-! ### The raster-rendering loop of `pi_ascii_art`
(src/piday2023.py, lines 197-223) -/

/-- State of the rendering loop: completed rows, the row being
accumulated, the index of the next unconsumed character of `pi_str`,
and the number of characters emitted in the current row. -/
structure RenderState where
  lines : List (List Char)
  line : List Char
  piIndex : Nat
  numChars : Nat
  deriving DecidableEq, Repr

/-- One iteration of `for pixel in pixels`: emit `pi_str[pi_index]`
(an `IndexError`, modelled as `Except.error`, if out of range) for an
ink pixel and a space otherwise; close the row when `num_chars`
reaches `width`. -/
def renderStep (width : Nat) (piStr : List Char) (inverted : Bool)
    (s : RenderState) (pixel : Nat) : Except Unit RenderState :=
  let numChars := s.numChars + 1
  match
    (if need_digit inverted pixel then
      match piStr.get? s.piIndex with
      | none => .error ()
      | some ch => .ok (s.line ++ [ch], s.piIndex + 1)
    else .ok (s.line ++ [' '], s.piIndex) : Except Unit (List Char × Nat)) with
  | .error e => .error e
  | .ok lp =>
    if numChars = width then
      .ok ⟨s.lines ++ [lp.1], [], lp.2, 0⟩
    else
      .ok ⟨s.lines, lp.1, lp.2, numChars⟩

/-- The full rendering loop over the row-major pixel list. -/
def renderLoop (width : Nat) (piStr : List Char) (inverted : Bool) :
    List Nat → RenderState → Except Unit RenderState
  | [], s => .ok s
  | pixel :: rest, s =>
    match renderStep width piStr inverted s pixel with
    | .error e => .error e
    | .ok s' => renderLoop width piStr inverted rest s'

/-- Rendering of a pixel grid against a digit string, starting from the
empty state; returns the final loop state (its `lines` field is the row
list before the blank-row-dropping join). -/
def renderPixels (width : Nat) (piStr : List Char) (inverted : Bool)
    (pixels : List Nat) : Except Unit RenderState :=
  renderLoop width piStr inverted pixels ⟨[], [], 0, 0⟩

/-- `num_digits = sum(map(need_digit, pixels))`: the number of ink
pixels. -/
def numInkDigits (inverted : Bool) (pixels : List Nat) : Nat :=
  (pixels.map (fun p => if need_digit inverted p then 1 else 0)).sum

/-- The final `'\n'.join(line for line in lines if line.strip())`:
rows consisting entirely of background are dropped (rendered rows
contain only digit-string characters and spaces, so `line.strip()` is
truthy exactly when some character differs from a space). -/
def joinNonBlank (lines : List (List Char)) : List Char :=
  List.intercalate ['\n'] (lines.filter (fun l => l.any (fun ch => ch ≠ ' ')))

/-! ### The `int_max_str_digits` cap (src/piday2023.py lines 33-44 and
206-209) -/

/-- Process-wide state touched by the conversion-cap logic: the
interpreter's `int_max_str_digits` cap (0 means "no limit") and the
module-global `_last_precision` (`None` initially). -/
structure CapState where
  cap : Nat
  lastPrecision : Option Nat
  deriving DecidableEq, Repr

/-- `sys.set_int_max_str_digits(n)`: raises `ValueError` unless
`n = 0` or `n ≥ 640` (CPython's threshold). -/
def set_int_max_str_digits (n : Nat) (s : CapState) : Except Unit CapState :=
  if n = 0 ∨ 640 ≤ n then .ok { s with cap := n } else .error ()

/-- `int(precision * safety_factor)` with the default
`safety_factor = 2.0001`.  The source multiplies by the binary float
`2.0001` (whose exact value exceeds the decimal 2.0001 by about
3.3e-17) and truncates; the rational `20001/10000` gives the same floor
for every precision reachable here, and in particular the bound
`conversionPrecision p ≥ 2 * p` used below holds for the float as
well. -/
def conversionPrecision (precision : Nat) : Nat :=
  precision * 20001 / 10000

/-- `_prepare_for_conversion(precision)`: when `_last_precision` is
falsy (`None` or 0) or smaller than `precision`, try to raise the cap
to `conversionPrecision precision`, suppressing a `ValueError`; the
global `_last_precision` is updated only when the set succeeds. -/
def _prepare_for_conversion (precision : Nat) (s : CapState) : CapState :=
  let go : Bool :=
    match s.lastPrecision with
    | none => true
    | some lp => lp = 0 || decide (lp < precision)
  if go then
    match set_int_max_str_digits (conversionPrecision precision) s with
    | .ok s' => { s' with lastPrecision := some precision }
    | .error _ => s
  else s

/-- The cap adjustment performed by `pi_ascii_art` immediately before
calling the computation engine (lines 206-208):
`if num_digits+1 > sys.get_int_max_str_digits():
sys.set_int_max_str_digits(num_digits+1)` (no suppression here: a
`ValueError` would propagate). -/
def renderCapAdjust (numDigits : Nat) (s : CapState) : Except Unit CapState :=
  if numDigits + 1 > s.cap then set_int_max_str_digits (numDigits + 1) s else .ok s

/-- The complete effect of one `pi_ascii_art` render call on the cap
state: the renderer's adjustment, then `_prepare_for_conversion`
(executed at the start of every `compute_pi_*` formula).  Returns the
state at the moment the engine is invoked and the state after the
render call returns; the engine touches the cap state nowhere else. -/
def piAsciiArtCapEffect (numDigits : Nat) (s : CapState) :
    Except Unit (CapState × CapState) :=
  match renderCapAdjust numDigits s with
  | .error e => .error e
  | .ok s1 => .ok (s1, _prepare_for_conversion numDigits s1)

/-! ### `main` and `print_exception` (src/piday2023.py, lines 248-272
and 335-342) -/

/-- `print_exception(e)` output text with the default
`message = None`: `f"{message}: {e}"` renders the `None` literally,
followed by the traceback. -/
def print_exception (e stackTrace : List Char) : List Char :=
  ("None: ".toList ++ e) ++ ('\n' :: "Stack Trace:".toList) ++ ('\n' :: stackTrace)

/-- Result of running `main()`: the returned exit status and the lines
printed to `sys.stderr`. -/
structure MainResult where
  exitCode : Int
  stderrOut : List (List Char)
  deriving DecidableEq, Repr

/-- `main()`: the try-block's outcome is abstracted as an
`Except (List Char) Unit` (exception message, or unit on success).
The source initializes `exit_code = failure_code (= 1)`, overwrites it
with `success_code (= 0)` on the successful branches, catches any
`Exception` with `print_exception(e)` — and then ends with a literal
`return 0` on every path, so the local `exit_code` is dead. -/
def main (body : Except (List Char) Unit) (stackTrace : List Char) : MainResult :=
  match body with
  | .ok _ => { exitCode := 0, stderrOut := [] }
  | .error e => { exitCode := 0, stderrOut := [print_exception e stackTrace] }

/-! ### Rational value of a decimal, and the specification-side AGM -/

/-- The rational value denoted by a decimal representation. -/
def decVal (x : Dec) : ℚ := (x.c : ℚ) * (10 : ℚ) ^ x.e

/-- Modelled from the spec's words (§4.2, quadratic-convergence mean
iteration): state seeded at `(a, g, z, n) = (1, 1/√2, 1/4, 1)`.
`1/√2` is `1 / Decimal(2).sqrt()` under the ambient decimal context;
`1/4` is the exactly representable decimal `0.25`. -/
def agmInitSpec (prec : Nat) : AgmState :=
  { a := ⟨1, 0⟩, g := decDiv prec ⟨1, 0⟩ (decSqrt prec ⟨2, 0⟩)
    z := ⟨25, -2⟩, n := ⟨1, 0⟩, oldPi := ⟨0, 0⟩, pi := ⟨0, 0⟩ }

/-- Modelled from the spec's words (§4.2): the update
`a' = (a+g)/2`, `g' = √(a·g)`, `z -= n·(a'-a)²`, `n ×= 2`, with
π-estimate `a'²/z`.  Halving is embedded as multiplication by the
exact decimal `0.5`; the theorem for the corresponding claim proves
that this computes the same value as context division by 2. -/
def agmIterateSpec (prec : Nat) (s : AgmState) : AgmState :=
  let a' := decMul prec (decAdd prec s.a s.g) half
  let g' := decSqrt prec (decMul prec s.a s.g)
  let var := decSub prec a' s.a
  let z' := decSub prec s.z (decMul prec s.n (decMul prec var var))
  let n' := decAdd prec s.n s.n
  { a := a', g := g', z := z', n := n', oldPi := s.pi
    pi := decDiv prec (decMul prec a' a') z' }

/-- Modelled from the spec's words (§4.2): run exactly 18 warm-up
iterations, then keep iterating while the estimate's change since the
previous iteration exceeds `10^(-precision)/2`, and return the final
estimate's decimal string truncated to `precision + 2` characters. -/
def compute_pi_agm_spec (fuel p : Nat) : Option (List Char) :=
  let prec := p + 3
  let warm := (agmIterateSpec prec)^[18] (agmInitSpec prec)
  match agmLoop prec (agmEpsilon prec p) fuel warm with
  | none => none
  | some s => some ((decStr s.pi).take (p + 2))

/-! ### Pairwise monotonic-prefix check (spec §8) -/

/-- `strs` holds `compute(p)` for `p = 1 … strs.length`; check that for
every `p ≤ p'` the two digit strings truncated to `p + 1` characters
agree. -/
def pairwisePrefixOk (strs : List (List Char)) : Bool :=
  (List.range strs.length).all fun i =>
    (List.range strs.length).all fun j =>
      !(decide (i ≤ j)) || ((strs.getD i []).take (i + 2) == (strs.getD j []).take (i + 2))

/-- Monotonic-prefix check for the three piday2023 algorithms at
precisions `1 … bound`: every algorithm must produce a result (no
failed assertion, enough fuel) and each algorithm's digit strings must
be pairwise prefix-consistent. -/
def prefixCheckUpTo (bound : Nat) : Bool :=
  let bbpS := (List.range bound).map (fun i => compute_pi_bbp (i + 1))
  let machinRes := (List.range bound).map (fun i => compute_pi_machin 99 (i + 1))
  let machinOk := machinRes.all (fun r => match r with | .ok _ => true | _ => false)
  let machinS := machinRes.map (fun r => match r with | .ok s => s | _ => [])
  let agmRes := (List.range bound).map (fun i => compute_pi_agm 40 (i + 1))
  let agmOk := agmRes.all (·.isSome)
  let agmS := agmRes.map (fun r => r.getD [])
  pairwisePrefixOk bbpS && machinOk && pairwisePrefixOk machinS
    && agmOk && pairwisePrefixOk agmS

/-- Boolean equality test on `Except` (for decidable equality of the
embedded results). -/
def exceptEqBool {ε α : Type} [DecidableEq ε] [DecidableEq α] :
    Except ε α → Except ε α → Bool
  | .ok a, .ok b => decide (a = b)
  | .error e, .error f => decide (e = f)
  | _, _ => false

instance {ε α : Type} [DecidableEq ε] [DecidableEq α] : DecidableEq (Except ε α) :=
  fun x y =>
    decidable_of_iff (exceptEqBool x y = true)
      (by cases x <;> cases y <;> simp [exceptEqBool])

/-! ## Theorems -/

set_option maxRecDepth 200000

/-- C9: for every pixel value and every inverted flag, the asciipi ink
predicate (`pixel XOR inverted`) is the exact pointwise logical
negation of the piday2023 ink predicate (`NOT (pixel XOR inverted)`):
one selects a pixel exactly when the other does not. -/
theorem c9_need_digit_polarity_negation (pixel : Nat) (inverted : Bool) :
    asciipi_need_digit inverted pixel = !(need_digit inverted pixel) := by
  cases inverted <;>
    by_cases h : pixel = 0 <;>
      simp [asciipi_need_digit, need_digit, truthy, h]

/-- C8: `main()` ends in a literal `return 0` on every path, so even a
run whose try-block raises an exception prints the message and stack
trace to the error stream but still returns exit code 0 — contradicting
the documented non-zero-on-failure contract (the local `exit_code`
bookkeeping is dead).  A successful run also returns 0, as documented. -/
theorem c8_main_exit_code (e stackTrace : List Char) :
    (Piday.main (.error e) stackTrace).exitCode = 0
    ∧ (Piday.main (.error e) stackTrace).stderrOut = [print_exception e stackTrace]
    ∧ (Piday.main (.ok ()) stackTrace).exitCode = 0 :=
  ⟨rfl, rfl, rfl⟩

/-- C1 counterexample: on the 2×4 grid whose ink pixels (pixel value 0,
`inverted = False`) form the pattern `[[1,0,1,0],[0,1,0,1]]`, rendering
with the digit string `"3.1415"` does not produce the rows `"1 1 "` and
`" 4 5"` claimed by the specification: the renderer does not skip the
leading `"3"` and the decimal point. -/
theorem c1_render_counterexample :
    decide ((renderPixels 4 "3.1415".toList false [0, 255, 0, 255, 255, 0, 255, 0]).map
        (fun s => s.lines)
      = .ok ["1 1 ".toList, " 4 5".toList]) = false := by
  decide

/-- C1 amended: on that grid the renderer consumes the digit string
from index 0 onward — the leading `"3"` and the `"."` are handed to the
first two ink pixels — producing the rows `"3 . "` and `" 1 4"` before
any trim/drop policy, and consuming exactly the first 4 characters of
`"3.1415"` (final `pi_index = 4`), one per ink pixel (`InkCount = 4`)
in row-major order. -/
theorem c1_render_rows :
    renderPixels 4 "3.1415".toList false [0, 255, 0, 255, 255, 0, 255, 0]
      = .ok ⟨["3 . ".toList, " 1 4".toList], [], 4, 0⟩
    ∧ numInkDigits false [0, 255, 0, 255, 255, 0, 255, 0] = 4 := by
  decide

/-- C7 counterexample: a render call on a grid with 1000 ink pixels,
starting from cap 640 (with `_last_precision = 2000` so the engine's
own adjustment is skipped), raises the cap to 1001 before invoking the
engine and leaves it at 1001 afterwards: the cap is not restored to its
prior value 640. -/
theorem c7_cap_counterexample :
    piAsciiArtCapEffect 1000 ⟨640, some 2000⟩
      = .ok (⟨1001, some 2000⟩, ⟨1001, some 2000⟩)
    ∧ decide ((1001 : Nat) = 640) = false := by
  decide

/-- C7 amended: before invoking the computation engine the renderer
ensures the cap is at least `InkCount + 1` (raising it when needed),
but the adjustment is not scoped: after the engine call returns the cap
is still at least `InkCount + 1`, and whenever a raise was needed the
cap strictly exceeds its prior value instead of being restored to it. -/
theorem c7_cap_raised_not_restored (n : Nat) (s s1 s2 : CapState)
    (hn : 1 ≤ n) (h : piAsciiArtCapEffect n s = .ok (s1, s2)) :
    n + 1 ≤ s1.cap ∧ n + 1 ≤ s2.cap ∧ (s.cap < n + 1 → s.cap < s2.cap) := by
  have hconv : n + 1 ≤ conversionPrecision n := by
    have h20 : (2 * n) * 10000 ≤ n * 20001 := by nlinarith
    have h2n : 2 * n ≤ conversionPrecision n :=
      (Nat.le_div_iff_mul_le (by norm_num)).mpr h20
    omega
  have hren : n + 1 ≤ s1.cap ∧ s2 = _prepare_for_conversion n s1 := by
    unfold piAsciiArtCapEffect at h
    rcases hra : renderCapAdjust n s with e | s1'
    · rw [hra] at h
      exact absurd h (by simp)
    · rw [hra] at h
      simp only [Except.ok.injEq, Prod.mk.injEq] at h
      obtain ⟨rfl, rfl⟩ := h
      refine ⟨?_, rfl⟩
      unfold renderCapAdjust set_int_max_str_digits at hra
      by_cases hc : n + 1 > s.cap
      · rw [if_pos hc] at hra
        by_cases hv : n + 1 = 0 ∨ 640 ≤ n + 1
        · rw [if_pos hv] at hra
          simp only [Except.ok.injEq] at hra
          rw [← hra]
        · rw [if_neg hv] at hra
          exact absurd hra (by simp)
      · rw [if_neg hc] at hra
        simp only [Except.ok.injEq] at hra
        rw [← hra]
        omega
  have h2 : n + 1 ≤ s2.cap := by
    rw [hren.2]
    simp only [_prepare_for_conversion, set_int_max_str_digits]
    split
    · by_cases hv : conversionPrecision n = 0 ∨ 640 ≤ conversionPrecision n
      · rw [if_pos hv]
        exact hconv
      · rw [if_neg hv]
        exact hren.1
    · exact hren.1
  exact ⟨hren.1, h2, fun hlt => lt_of_lt_of_le hlt h2⟩

/-- C7 witness: the amended theorem instantiated at the
counterexample's concrete run. -/
theorem c7_cap_witness :
    1 ≤ 1000
    ∧ (1000 + 1 ≤ (⟨1001, some 2000⟩ : CapState).cap
        ∧ 1000 + 1 ≤ (⟨1001, some 2000⟩ : CapState).cap
        ∧ ((⟨640, some 2000⟩ : CapState).cap < 1000 + 1 →
            (⟨640, some 2000⟩ : CapState).cap < (⟨1001, some 2000⟩ : CapState).cap)) :=
  ⟨by decide,
    c7_cap_raised_not_restored 1000 ⟨640, some 2000⟩ ⟨1001, some 2000⟩
      ⟨1001, some 2000⟩ (by decide) (by decide)⟩

/-! ### C2: the Machin length assertion -/

theorem mem_natDigitsAux_lt : ∀ (f n d : Nat), d ∈ natDigitsAux f n → d < 10
  | 0, _, _, h => absurd h (List.not_mem_nil _)
  | f + 1, n, d, h => by
    unfold natDigitsAux at h
    split at h
    · exact absurd h (List.not_mem_nil _)
    · rcases List.mem_cons.mp h with h1 | h2
      · rw [h1]; exact Nat.mod_lt _ (by norm_num)
      · exact mem_natDigitsAux_lt f (n / 10) d h2

theorem digitChar_ne_dot (d : Nat) (hd : d < 10) : digitChar d ≠ '.' := by
  interval_cases d <;> decide

theorem dot_not_mem_digitsStr (n : Nat) : '.' ∉ digitsStr n := by
  unfold digitsStr
  split
  · decide
  · intro hmem
    rcases List.mem_map.mp hmem with ⟨d, hd, hEq⟩
    exact digitChar_ne_dot d
      (mem_natDigitsAux_lt _ _ _ (List.mem_reverse.mp hd)) hEq

theorem dot_not_mem_intStr (i : Int) : '.' ∉ intStr i := by
  unfold intStr
  intro hmem
  rcases List.mem_append.mp hmem with h | h
  · by_cases hi : i < 0 <;> simp [hi] at h
  · exact dot_not_mem_digitsStr _ h

/-- C2: the arctangent-combination algorithm asserts the sliced digit
string's length.  Whenever the digit string derived from the scaled,
truncated integer (`str(pi_int)[:precision+1]`) has length different
from `precision + 1`, `compute_pi_machin` fails with an
`AssertionError` instead of returning; and whenever it returns
normally, its result consists of exactly `precision + 1` digit
characters (plus the inserted decimal point), so the integer-digit part
has exactly `precision + 1` characters. -/
theorem c2_machin_length_assert (p fuel : Nat) (hp : 0 < p) :
    (∀ i, machinPiInt fuel p = some i →
        ((intStr i).take (p + 1)).length ≠ p + 1 →
        compute_pi_machin fuel p = .assertionError)
    ∧ (∀ s, compute_pi_machin fuel p = .ok s →
        s.length = p + 2
        ∧ (s.filter (fun ch => ch ≠ '.')).length = p + 1) := by
  constructor
  · intro i hi hlen
    unfold compute_pi_machin
    rw [hi]
    exact if_neg hlen
  · intro s hs
    unfold compute_pi_machin at hs
    rcases hm : machinPiInt fuel p with _ | i <;> rw [hm] at hs <;> dsimp only at hs
    · exact absurd hs (by simp)
    · by_cases hlen : ((intStr i).take (p + 1)).length = p + 1
      · rw [if_pos hlen] at hs
        simp only [MachinOutcome.ok.injEq] at hs
        subst hs
        have hno : ∀ ch ∈ (intStr i).take (p + 1), ch ≠ '.' := fun ch hch hEq =>
          dot_not_mem_intStr i (List.take_subset _ _ (hEq ▸ hch))
        constructor
        · simp only [List.length_append, List.length_cons, List.length_take,
            List.length_drop, hlen]
          omega
        · have hfilter :
              (((intStr i).take (p + 1)).take 1
                  ++ '.' :: ((intStr i).take (p + 1)).drop 1).filter
                  (fun ch => ch ≠ '.')
                = ((intStr i).take (p + 1)).take 1
                  ++ ((intStr i).take (p + 1)).drop 1 := by
            rw [List.filter_append, List.filter_cons, if_neg (by decide)]
            congr 1
            · exact List.filter_eq_self.mpr fun a ha => by
                simpa using hno a (List.take_subset _ _ ha)
            · exact List.filter_eq_self.mpr fun a ha => by
                simpa using hno a (List.drop_subset _ _ ha)
          rw [hfilter, List.take_append_drop, hlen]
      · rw [if_neg hlen] at hs
        exact absurd hs (by simp)

/-- C2 witness: at precision 1 (with ample fuel) the algorithm returns
`"3.1"`, whose length is `1 + 2` and whose digit part has `1 + 1`
characters. -/
theorem c2_machin_witness :
    0 < 1
    ∧ ("3.1".toList.length = 1 + 2
        ∧ ("3.1".toList.filter (fun ch => ch ≠ '.')).length = 1 + 1) :=
  ⟨Nat.one_pos,
    (c2_machin_length_assert 1 99 Nat.one_pos).2 "3.1".toList (by decide)⟩

/-! ### C4: termination and early exit of the BBP summation loop -/

theorem bbpRun_count_spec (prec : Nat) (scale : Int) :
    ∀ (m start : Nat) (res : Dec × Int × Nat),
      bbpRun prec scale m start (bbpSeq prec scale start).1 (bbpSeq prec scale start).2 = res →
      res.2.2 ≤ m
      ∧ (∀ j, j + 1 < res.2.2 →
          (bbpSeq prec scale (start + j + 1)).2 ≠ (bbpSeq prec scale (start + j)).2)
      ∧ (res.2.2 < m →
          1 ≤ res.2.2
          ∧ (bbpSeq prec scale (start + res.2.2)).2
              = (bbpSeq prec scale (start + res.2.2 - 1)).2) := by
  intro m
  induction m with
  | zero =>
    intro start res h
    simp only [bbpRun] at h
    subst h
    dsimp only
    exact ⟨by omega, fun j hj => absurd hj (by omega), fun hlt => absurd hlt (by omega)⟩
  | succ m ih =>
    intro start res h
    obtain ⟨h1, h2, h3⟩ := ih (start + 1) _ rfl
    simp only [bbpRun] at h
    rw [show bbpBody prec scale start (bbpSeq prec scale start).1
        = bbpSeq prec scale (start + 1) from rfl] at h
    set R := bbpRun prec scale m (start + 1)
      (bbpSeq prec scale (start + 1)).1 (bbpSeq prec scale (start + 1)).2 with hR
    by_cases hbr : (bbpSeq prec scale (start + 1)).2 = (bbpSeq prec scale start).2
    · rw [if_pos hbr] at h
      subst h
      dsimp only
      refine ⟨by omega, fun j hj => absurd hj (by omega), fun _ => ⟨le_refl _, ?_⟩⟩
      rw [show start + 1 - 1 = start from by omega]
      exact hbr
    · rw [if_neg hbr] at h
      subst h
      dsimp only
      refine ⟨by omega, ?_, ?_⟩
      · intro j hj
        match j with
        | 0 =>
          rw [show start + 0 + 1 = start + 1 from by omega,
              show start + 0 = start from by omega]
          exact hbr
        | j' + 1 =>
          have := h2 j' (by omega)
          rw [show start + 1 + j' + 1 = start + (j' + 1) + 1 from by omega,
              show start + 1 + j' = start + (j' + 1) from by omega] at this
          exact this
      · intro hlt
        obtain ⟨hc1, hc2⟩ := h3 (by omega)
        refine ⟨by omega, ?_⟩
        rw [show start + (R.2.2 + 1) = start + 1 + R.2.2 from by omega]
        exact hc2

/-- C4: the BBP summation loop always terminates within the hard bound
of `precision + 4` iterations (piday2023's guard-digit constant; the
asciipi variant is bounded by its `precision` loop range, below its
`precision + 2` guard), and it stops early exactly at the first
iteration whose truncated scaled sum equals the previous truncation:
before the stopping point consecutive truncations always differ, and
when the loop exits before the bound the last two truncations agree. -/
theorem c4_bbp_termination (p : Nat) (hp : 0 < p) :
    bbpIters p ≤ p + 4
    ∧ (∀ j, j + 1 < bbpIters p →
        (bbpSeq (p + 4) ((10 : Int) ^ (p + 4)) (j + 1)).2
          ≠ (bbpSeq (p + 4) ((10 : Int) ^ (p + 4)) j).2)
    ∧ (bbpIters p < p + 4 →
        1 ≤ bbpIters p
        ∧ (bbpSeq (p + 4) ((10 : Int) ^ (p + 4)) (bbpIters p)).2
            = (bbpSeq (p + 4) ((10 : Int) ^ (p + 4)) (bbpIters p - 1)).2)
    ∧ asciipiIters p ≤ p + 2 := by
  have hb := bbpRun_count_spec (p + 4) ((10 : Int) ^ (p + 4)) (p + 4) 0 _ rfl
  have ha := bbpRun_count_spec (p + 2) ((10 : Int) ^ p) p 0 _ rfl
  simp only [Nat.zero_add] at hb ha
  exact ⟨hb.1, hb.2.1, hb.2.2, le_trans ha.1 (by omega)⟩

/-- C4 witness: the theorem instantiated at precision 1, where the
loop runs 4 of the 5 permitted iterations before stopping early. -/
theorem c4_bbp_witness :
    0 < 1
    ∧ (bbpIters 1 ≤ 1 + 4
        ∧ (∀ j, j + 1 < bbpIters 1 →
            (bbpSeq (1 + 4) ((10 : Int) ^ (1 + 4)) (j + 1)).2
              ≠ (bbpSeq (1 + 4) ((10 : Int) ^ (1 + 4)) j).2)
        ∧ (bbpIters 1 < 1 + 4 →
            1 ≤ bbpIters 1
            ∧ (bbpSeq (1 + 4) ((10 : Int) ^ (1 + 4)) (bbpIters 1)).2
                = (bbpSeq (1 + 4) ((10 : Int) ^ (1 + 4)) (bbpIters 1 - 1)).2)
        ∧ asciipiIters 1 ≤ 1 + 2) :=
  ⟨Nat.one_pos, c4_bbp_termination 1 Nat.one_pos⟩

/-! ### C5: the arctangent series evaluator -/

theorem atanLoop_spec (prec : Nat) :
    ∀ (fuel : Nat) (s s' : AtanState) (j : Nat),
      atanLoop prec fuel s = some (s', j) →
      s' = (atanStep prec)^[j] s
      ∧ atanCond s' = false
      ∧ ∀ i, i < j → atanCond ((atanStep prec)^[i] s) = true := by
  intro fuel
  induction fuel with
  | zero =>
    intro s s' j h
    rw [atanLoop] at h
    by_cases hc : atanCond s = true
    · rw [if_pos hc] at h
      exact absurd h (by simp)
    · rw [if_neg hc] at h
      simp only [Option.some.injEq, Prod.mk.injEq] at h
      obtain ⟨rfl, rfl⟩ := h.symm
      exact ⟨rfl, by simpa using hc, fun i hi => absurd hi (by omega)⟩
  | succ f ihf =>
    intro s s' j h
    rw [atanLoop] at h
    by_cases hc : atanCond s = true
    · rw [if_pos hc] at h
      rcases hrec : atanLoop prec f (atanStep prec s) with _ | sj
      · rw [hrec] at h
        exact absurd h (by simp)
      · obtain ⟨s'', j''⟩ := sj
        rw [hrec] at h
        simp only [Option.some.injEq, Prod.mk.injEq] at h
        obtain ⟨rfl, rfl⟩ := h.symm
        obtain ⟨hiter, hcondf, hmin⟩ := ihf (atanStep prec s) s'' j'' hrec
        refine ⟨?_, hcondf, ?_⟩
        · rw [hiter, ← Function.iterate_succ_apply]
        · intro i hi
          match i with
          | 0 => exact hc
          | i' + 1 =>
            rw [Function.iterate_succ_apply]
            exact hmin i' (by omega)
    · rw [if_neg hc] at h
      simp only [Option.some.injEq, Prod.mk.injEq] at h
      obtain ⟨rfl, rfl⟩ := h.symm
      exact ⟨rfl, by simpa using hc, fun i hi => absurd hi (by omega)⟩

/-- C5: operational contract of `decimal_atan2`.  (i) Omitting `x` is
exactly calling with numerator 1 and denominator `y`.  (ii) When the
loop returns, the result is the difference of the two sign-separated
accumulators, and the loop has stopped exactly at the first state whose
total equals the previous iteration's total under the active rounding
context (`atanCond` is the loop guard; before the exit it is always
true, at the exit the previous and current totals compare equal).
(iii) The iteration sums the series with running powers: at the `k`-th
pass the divisor is the odd number `2k + 1`, the sign alternates as
`(-1)^k`, and the power terms are produced by repeated context
multiplication with the squares `x²` and `y²`. -/
theorem c5_decimal_atan2 (fuel prec : Nat) (y : Dec) :
    decimal_atan2 fuel prec y none = decimal_atan2 fuel prec ⟨1, 0⟩ (some y)
    ∧ (∀ x s' j, atanLoop prec fuel (atanInit prec y x) = some (s', j) →
        decimal_atan2 fuel prec y (some x) = some s'.total
        ∧ s'.total = decSub prec s'.posTotal s'.negTotal
        ∧ (∃ t, s'.oldTotal = some t ∧ decEqv t s'.total = true)
        ∧ (∀ i, i < j → atanCond (atanIter prec y x i) = true)
        ∧ atanCond (atanIter prec y x j) = false)
    ∧ (∀ x k, (atanIter prec y x k).n = 2 * (k : Int) + 1
        ∧ (atanIter prec y x k).sgn = (if k % 2 = 0 then 1 else -1)
        ∧ (atanIter prec y x k).x2 = decMul prec x x
        ∧ (atanIter prec y x k).y2 = decMul prec y y
        ∧ (atanIter prec y x k).xp = (fun v => decMul prec v (decMul prec x x))^[k] x
        ∧ (atanIter prec y x k).yp = (fun v => decMul prec v (decMul prec y y))^[k] y) := by
  refine ⟨rfl, ?_, ?_⟩
  · intro x s' j h
    obtain ⟨hiter, hcond, hmin⟩ := atanLoop_spec prec fuel (atanInit prec y x) s' j h
    have hres : decimal_atan2 fuel prec y (some x) = some s'.total := by
      unfold decimal_atan2
      dsimp only
      rw [h]
    have hj : j ≠ 0 := by
      intro h0
      subst h0
      rw [hiter] at hcond
      exact absurd hcond (by simp [atanCond, atanInit])
    obtain ⟨j', rfl⟩ : ∃ j', j = j' + 1 := ⟨j - 1, by omega⟩
    have htot : s'.total = decSub prec s'.posTotal s'.negTotal := by
      rw [hiter, Function.iterate_succ_apply']
      rfl
    have hcond' : atanCond (atanIter prec y x (j' + 1)) = false := by
      show atanCond ((atanStep prec)^[j' + 1] (atanInit prec y x)) = false
      rw [← hiter]
      exact hcond
    refine ⟨hres, htot, ?_, hmin, hcond'⟩
    unfold atanCond at hcond
    rcases ho : s'.oldTotal with _ | t <;> rw [ho] at hcond
    · exact absurd hcond (by simp)
    · exact ⟨t, rfl, by simpa using hcond⟩
  · intro x k
    induction k with
    | zero => exact ⟨by norm_num [atanIter, atanInit], rfl, rfl, rfl, rfl, rfl⟩
    | succ k ihk =>
      obtain ⟨hn, hsgn, hx2, hy2, hxp, hyp⟩ := ihk
      have hstep : atanIter prec y x (k + 1) = atanStep prec (atanIter prec y x k) :=
        Function.iterate_succ_apply' _ _ _
      refine ⟨?_, ?_, ?_, ?_, ?_, ?_⟩
      · rw [hstep]
        show (atanIter prec y x k).n + 2 = _
        rw [hn]
        push_cast
        ring
      · rw [hstep]
        show -(atanIter prec y x k).sgn = _
        rw [hsgn]
        by_cases hk : k % 2 = 0
        · rw [if_pos hk, if_neg (by omega)]
        · rw [if_neg hk, if_pos (by omega)]
          norm_num
      · rw [hstep]
        exact hx2
      · rw [hstep]
        exact hy2
      · rw [hstep]
        show decMul prec (atanIter prec y x k).xp (atanIter prec y x k).x2 = _
        rw [hxp, hx2, Function.iterate_succ_apply']
      · rw [hstep]
        show decMul prec (atanIter prec y x k).yp (atanIter prec y x k).y2 = _
        rw [hyp, hy2, Function.iterate_succ_apply']

/-- C5 witness: the contract instantiated on `arctan(1/5)` at working
precision 5 with fuel 30: the loop stops after 4 iterations at total
`0.19739` (= `posTotal 0.20006 − negTotal 0.0026685`), with the
previous iteration's total comparing equal. -/
theorem c5_atan2_witness :
    decimal_atan2 30 5 ⟨1, 0⟩ (some ⟨5, 0⟩)
      = some (⟨19739, -5⟩ : Dec)
    ∧ (⟨19739, -5⟩ : Dec) = decSub 5 ⟨20006, -5⟩ ⟨26685, -7⟩
    ∧ (∃ t, (some (⟨19739, -5⟩ : Dec) : Option Dec) = some t
        ∧ decEqv t ⟨19739, -5⟩ = true)
    ∧ (∀ i, i < 4 → atanCond (atanIter 5 ⟨1, 0⟩ ⟨5, 0⟩ i) = true)
    ∧ atanCond (atanIter 5 ⟨1, 0⟩ ⟨5, 0⟩ 4) = false :=
  (c5_decimal_atan2 30 5 ⟨1, 0⟩).2.1 ⟨5, 0⟩
    { xp := ⟨19531, 2⟩, yp := ⟨1, 0⟩, x2 := ⟨25, 0⟩, y2 := ⟨1, 0⟩
      posTotal := ⟨20006, -5⟩, negTotal := ⟨26685, -7⟩
      sgn := 1, n := 9
      oldTotal := some ⟨19739, -5⟩, total := ⟨19739, -5⟩ } 4 (by decide)

/-! ### C3: the AGM algorithm matches its specification -/

theorem natDigitsAux_eq (n : Nat) : ∀ f, n < f → natDigitsAux f n = natDigits n := by
  induction n using Nat.strong_induction_on with
  | _ n ih =>
    intro f hf
    match f with
    | f' + 1 =>
      by_cases h0 : n = 0
      · subst h0
        simp [natDigitsAux, natDigits]
      · have hn1 : 1 ≤ n := by omega
        have hdiv : n / 10 < n := Nat.div_lt_self (by omega) (by norm_num)
        unfold natDigits natDigitsAux
        rw [if_neg h0, if_neg h0]
        congr 1
        rw [ih (n / 10) hdiv f' (by omega), ih (n / 10) hdiv n (by omega)]

theorem natDigits_ne_nil (n : Nat) (hn : n ≠ 0) : natDigits n ≠ [] := by
  unfold natDigits natDigitsAux
  rw [if_neg hn]
  simp

theorem natDigits_ten_mul (a : Nat) (ha : a ≠ 0) :
    natDigits (10 * a) = 0 :: natDigits a := by
  have h10 : 10 * a ≠ 0 := by omega
  unfold natDigits
  rw [natDigitsAux, if_neg h10, Nat.mul_mod_right,
    Nat.mul_div_cancel_left a (by norm_num : 0 < 10)]
  congr 1
  exact natDigitsAux_eq a (10 * a) (by omega)

theorem pyLen_pos (n : Nat) : 1 ≤ pyLen n := le_max_left _ _

theorem pyLen_eq_length (n : Nat) (hn : n ≠ 0) : pyLen n = (natDigits n).length := by
  unfold pyLen
  have h1 : 1 ≤ (natDigits n).length := by
    cases hD : natDigits n with
    | nil => exact absurd hD (natDigits_ne_nil n hn)
    | cons _ _ => simp
  omega

theorem pyLen_ten_mul (a : Nat) (ha : a ≠ 0) : pyLen (10 * a) = pyLen a + 1 := by
  rw [pyLen_eq_length _ (by omega), pyLen_eq_length _ ha, natDigits_ten_mul a ha]
  rfl

theorem decVal_ten_shift (c e_ : Int) : decVal ⟨c * 10, e_ - 1⟩ = decVal ⟨c, e_⟩ := by
  unfold decVal
  rw [zpow_sub_one₀ (by norm_num : (10 : ℚ) ≠ 0)]
  push_cast
  ring

theorem sign_mul_natAbs_eq (c : Int) (hc : c ≠ 0) :
    (if c < 0 then (-1 : Int) else 1) * (c.natAbs : Int) = c := by
  rcases lt_trichotomy c 0 with h | h | h
  · rw [if_pos h, Int.ofNat_natAbs_of_nonpos (le_of_lt h)]
    ring
  · exact absurd h hc
  · rw [if_neg (by omega), Int.natAbs_of_nonneg (le_of_lt h)]
    ring

theorem halfEvenUp_ten (q r P : Nat) :
    halfEvenUp q (10 * r) (10 * P) = halfEvenUp q r P := by
  unfold halfEvenUp
  by_cases h1 : 2 * r > P
  · rw [if_pos (by omega), if_pos h1]
  · by_cases h2 : 2 * r < P
    · rw [if_neg (by omega), if_pos (by omega), if_neg h1, if_pos h2]
    · rw [if_neg (by omega), if_neg (by omega), if_neg h1, if_neg h2]

/-- Half-even rounding is a function of the decimal's value: shifting a
coefficient by a factor of 10 while lowering the exponent by 1 leaves
the rounded value unchanged. -/
theorem fix_val_ten (prec : Nat) (c e_ : Int) :
    decVal (fix prec ⟨c * 10, e_ - 1⟩) = decVal (fix prec ⟨c, e_⟩) := by
  by_cases hc : c = 0
  · subst hc
    norm_num [fix, decVal]
  · have hc10 : c * 10 ≠ 0 := by omega
    have hAne : c.natAbs ≠ 0 := Int.natAbs_ne_zero.mpr hc
    have hA : (c * 10).natAbs = 10 * c.natAbs := by
      rw [Int.natAbs_mul]
      simp [Nat.mul_comm]
    have hs : (if c * 10 < 0 then (-1 : Int) else 1) = if c < 0 then -1 else 1 := by
      by_cases h : c < 0
      · rw [if_pos h, if_pos (by omega)]
      · rw [if_neg h, if_neg (by omega)]
    simp only [fix]
    rw [if_neg hc, if_neg hc10]
    dsimp only
    rw [hA, pyLen_ten_mul _ hAne, hs]
    set L := pyLen c.natAbs with hLdef
    by_cases hA1 : L + 1 ≤ prec
    · rw [if_pos hA1, if_pos (by omega)]
      exact decVal_ten_shift c e_
    · by_cases hB : L ≤ prec
      · rw [if_neg hA1, if_pos hB]
        rw [show L + 1 - prec = 1 from by omega, pow_one,
          Nat.mul_div_cancel_left _ (by norm_num : (0:Nat) < 10), Nat.mul_mod_right]
        rw [show (if halfEvenUp c.natAbs 0 10 = true then c.natAbs + 1 else c.natAbs)
            = c.natAbs from rfl]
        rw [if_neg (show ¬ pyLen c.natAbs > prec from by omega)]
        rw [sign_mul_natAbs_eq c hc]
        rw [show e_ - 1 + ((1 : Nat) : Int) = e_ from by push_cast; ring]
      · rw [if_neg hA1, if_neg hB]
        have hq : 10 * c.natAbs / 10 ^ (L + 1 - prec)
            = c.natAbs / 10 ^ (L - prec) := by
          rw [show L + 1 - prec = (L - prec) + 1 from by omega, pow_succ,
            Nat.mul_comm (10 ^ (L - prec)) 10,
            Nat.mul_div_mul_left _ _ (by norm_num : (0:Nat) < 10)]
        have hr : 10 * c.natAbs % 10 ^ (L + 1 - prec)
            = 10 * (c.natAbs % 10 ^ (L - prec)) := by
          rw [show L + 1 - prec = (L - prec) + 1 from by omega, pow_succ,
            Nat.mul_comm (10 ^ (L - prec)) 10, Nat.mul_mod_mul_left]
        have hP : (10 : Nat) ^ (L + 1 - prec) = 10 * 10 ^ (L - prec) := by
          rw [show L + 1 - prec = (L - prec) + 1 from by omega, pow_succ]
          ring
        rw [hq, hr, hP, halfEvenUp_ten]
        set Q := if halfEvenUp (c.natAbs / 10 ^ (L - prec))
            (c.natAbs % 10 ^ (L - prec)) (10 ^ (L - prec)) = true
          then c.natAbs / 10 ^ (L - prec) + 1
          else c.natAbs / 10 ^ (L - prec) with hQ
        by_cases hover : pyLen Q > prec
        · rw [if_pos hover, if_pos hover]
          rw [show e_ - 1 + ((L + 1 - prec : Nat) : Int) + 1
              = e_ + ((L - prec : Nat) : Int) + 1 from by push_cast <;> omega]
        · rw [if_neg hover, if_neg hover]
          rw [show e_ - 1 + ((L + 1 - prec : Nat) : Int)
              = e_ + ((L - prec : Nat) : Int) from by push_cast <;> omega]

theorem fix_val_pow_shift (prec : Nat) (c e_ : Int) :
    ∀ k : Nat, decVal (fix prec ⟨c * 10 ^ k, e_ - k⟩) = decVal (fix prec ⟨c, e_⟩)
  | 0 => by norm_num
  | k + 1 => by
    rw [show c * 10 ^ (k + 1) = c * 10 ^ k * 10 from by ring,
      show e_ - ((k : Nat) + 1 : Nat) = e_ - k - 1 from by push_cast; ring]
    rw [fix_val_ten prec (c * 10 ^ k) (e_ - k)]
    exact fix_val_pow_shift prec c e_ k

/-- Two representations of the same decimal value round to the same
value. -/
theorem fix_val_congr (prec : Nat) (c1 c2 e1 e2 : Int) (k : Nat)
    (hc : c2 = c1 * 10 ^ k) (he : e2 = e1 - k) :
    decVal (fix prec ⟨c1, e1⟩) = decVal (fix prec ⟨c2, e2⟩) := by
  subst hc
  subst he
  exact (fix_val_pow_shift prec c1 e1 k).symm

theorem stripZeros_shape : ∀ (f q : Nat) (ex ideal : Int),
    ∃ m : Nat, q = (stripZeros f q ex ideal).1 * 10 ^ m
      ∧ (stripZeros f q ex ideal).2 = ex + m
  | 0, q, ex, ideal => ⟨0, by simp [stripZeros]⟩
  | f + 1, q, ex, ideal => by
    rw [stripZeros]
    by_cases h : ex < ideal ∧ q % 10 = 0
    · rw [if_pos h]
      obtain ⟨m, hm1, hm2⟩ := stripZeros_shape f (q / 10) (ex + 1) ideal
      refine ⟨m + 1, ?_, ?_⟩
      · calc q = q / 10 * 10 := (Nat.div_mul_cancel (Nat.dvd_of_mod_eq_zero h.2)).symm
        _ = (stripZeros f (q / 10) (ex + 1) ideal).1 * 10 ^ m * 10 := by rw [← hm1]
        _ = (stripZeros f (q / 10) (ex + 1) ideal).1 * 10 ^ (m + 1) := by ring
      · rw [hm2]
        push_cast
        ring
    · rw [if_neg h]
      exact ⟨0, by simp⟩

/-- Multiplying a context-representable decimal by the exact constant
`0.5` yields the same value as context division by 2: both compute the
half, correctly rounded to `prec` significant digits. -/
theorem mul_half_val_div_two (prec : Nat) (x : Dec) (hprec : 1 ≤ prec)
    (hx : pyLen x.c.natAbs ≤ prec) :
    decVal (decMul prec x half) = decVal (decDiv prec x ⟨2, 0⟩) := by
  obtain ⟨c, e⟩ := x
  dsimp only at hx
  by_cases hc : c = 0
  · subst hc
    simp [decMul, decDiv, half, fix, decVal]
  · have hAne : c.natAbs ≠ 0 := Int.natAbs_ne_zero.mpr hc
    have hsA : (if decide (c < 0) = decide ((2 : Int) < 0) then (1 : Int) else -1)
        * (c.natAbs : Int) = c := by
      by_cases hneg : c < 0
      · rw [if_neg (by simp [hneg]), Int.ofNat_natAbs_of_nonpos (le_of_lt hneg)]
        ring
      · rw [if_pos (by simp [hneg]), Int.natAbs_of_nonneg (by omega), one_mul]
    simp only [decDiv]
    rw [if_neg (show ¬ (⟨2, 0⟩ : Dec).c = 0 from by norm_num),
      if_neg (show ¬ (⟨c, e⟩ : Dec).c = 0 from hc)]
    dsimp only
    rw [show pyLen (2 : Int).natAbs = 1 from rfl]
    simp only [Int.natAbs_ofNat, Nat.cast_one]
    rw [if_pos (show (0 : Int) ≤ 1 - (pyLen c.natAbs : Int) + prec + 1 from by omega)]
    dsimp only
    rw [show ((1 : Int) - (pyLen c.natAbs : Int) + prec + 1).toNat
        = prec + 2 - pyLen c.natAbs from by omega,
      show (2 : Int).natAbs = 2 from rfl]
    set t := prec + 2 - pyLen c.natAbs with htdef
    have ht1 : 1 ≤ t := by omega
    have hAq : c.natAbs * 10 ^ t = 2 * (5 * c.natAbs * 10 ^ (t - 1)) := by
      conv_lhs => rw [show t = (t - 1) + 1 from by omega]
      rw [pow_succ]
      ring
    have hq : c.natAbs * 10 ^ t / 2 = 5 * c.natAbs * 10 ^ (t - 1) := by
      rw [hAq]
      exact Nat.mul_div_cancel_left _ (by norm_num)
    have hr : c.natAbs * 10 ^ t % 2 = 0 := by
      rw [hAq]
      exact Nat.mul_mod_right 2 _
    rw [hq, hr]
    rw [if_neg (show ¬ ((0 : Nat) ≠ 0) from fun h => h rfl)]
    set sgn := (if decide (c < 0) = decide ((2 : Int) < 0) then (1 : Int) else -1)
      with hsgndef
    rw [Int.natCast_natAbs] at hsA
    obtain ⟨m, hm1, hm2⟩ := stripZeros_shape
      (pyLen (5 * c.natAbs * 10 ^ (t - 1))) (5 * c.natAbs * 10 ^ (t - 1))
      (e - 0 - ((1 : Int) - (pyLen c.natAbs : Int) + prec + 1)) (e - 0)
    set qe := stripZeros (pyLen (5 * c.natAbs * 10 ^ (t - 1)))
      (5 * c.natAbs * 10 ^ (t - 1))
      (e - 0 - ((1 : Int) - (pyLen c.natAbs : Int) + prec + 1)) (e - 0) with hqe
    simp only [decMul, half]
    have hE : qe.2 = e - t + m := by
      rw [hm2]
      omega
    by_cases hcmp : m ≤ t - 1
    · have hq1 : qe.1 = 5 * c.natAbs * 10 ^ (t - 1 - m) := by
        have h10 : (0 : Nat) < 10 ^ m := pow_pos (by norm_num) m
        apply Nat.eq_of_mul_eq_mul_right h10
        rw [← hm1,
          show 5 * c.natAbs * 10 ^ (t - 1 - m) * 10 ^ m
            = 5 * c.natAbs * 10 ^ ((t - 1 - m) + m) from by rw [pow_add]; ring,
          show (t - 1 - m) + m = t - 1 from by omega]
      apply fix_val_congr prec (c * 5) _ (e + -1) _ (t - 1 - m)
      · rw [hq1]
        push_cast
        linear_combination (5 * (10 : Int) ^ (t - 1 - m)) * hsA
      · rw [hE]
        push_cast
        omega
    · have hq1 : qe.1 * 10 ^ (m - (t - 1)) = 5 * c.natAbs := by
        have h10 : (0 : Nat) < 10 ^ (t - 1) := pow_pos (by norm_num) (t - 1)
        apply Nat.eq_of_mul_eq_mul_right h10
        rw [show qe.1 * 10 ^ (m - (t - 1)) * 10 ^ (t - 1)
            = qe.1 * 10 ^ ((m - (t - 1)) + (t - 1)) from by rw [pow_add]; ring,
          show (m - (t - 1)) + (t - 1) = m from by omega]
        exact hm1.symm
      refine (fix_val_congr prec _ (c * 5) qe.2 (e + -1) (m - (t - 1)) ?_ ?_).symm
      · have hq1' : (qe.1 : Int) * 10 ^ (m - (t - 1)) = 5 * |c| := by
          have hcast := congrArg (fun n : Nat => (n : Int)) hq1
          push_cast at hcast
          exact hcast
        linear_combination (-sgn) * hq1' + (-5 : Int) * hsA
      · rw [hE]
        push_cast
        omega

theorem decMul_comm (prec : Nat) (x y : Dec) : decMul prec x y = decMul prec y x := by
  unfold decMul
  rw [Int.mul_comm x.c y.c, Int.add_comm x.e y.e]

theorem agmIterateSpec_eq (prec : Nat) (s : AgmState) :
    agmIterateSpec prec s = agmIterate prec s := by
  simp only [agmIterateSpec, agmIterate]
  rw [decMul_comm prec s.n]

/-- C3: the AGM π computation agrees with the specification's
description of it, and halving by the exact decimal `0.5` (the code's
`(a+g)*half`) computes the same value as the spec's division by 2 for
every context-representable operand. -/
theorem c3_agm_matches_spec :
    (∀ fuel p, compute_pi_agm fuel p = compute_pi_agm_spec fuel p)
    ∧ (∀ prec (x : Dec), 1 ≤ prec → pyLen x.c.natAbs ≤ prec →
        decVal (decMul prec x half) = decVal (decDiv prec x ⟨2, 0⟩)) := by
  constructor
  · intro fuel p
    simp only [compute_pi_agm, compute_pi_agm_spec]
    rw [funext (agmIterateSpec_eq (p + 3))]
    rfl
  · intro prec x h1 h2
    exact mul_half_val_div_two prec x h1 h2

/-- C3 witness: the spec equivalence evaluated at precision 1 with fuel
40, and the halving identity at `prec = 4`, `x = 3`. -/
theorem c3_agm_witness :
    compute_pi_agm 40 1 = compute_pi_agm_spec 40 1
    ∧ (1 ≤ 4 ∧ pyLen (3 : Int).natAbs ≤ 4
        ∧ decVal (decMul 4 ⟨3, 0⟩ half) = decVal (decDiv 4 ⟨3, 0⟩ ⟨2, 0⟩)) :=
  ⟨c3_agm_matches_spec.1 40 1,
    by decide, by decide,
    c3_agm_matches_spec.2 4 ⟨3, 0⟩ (by decide) (by decide)⟩

/-! ### C6: the monotonic prefix property -/

set_option maxHeartbeats 4000000 in
/-- C6 counterexample: the AGM algorithm violates the monotonic prefix
property at precision 79.  `compute_pi_agm` at precision 79 rounds the
digits `…2089…` of π up to `…209` inside its first `79 + 1` characters,
while at precision 80 the same truncation ends `…208`: so the 80-char
truncations of `compute(79)` and `compute(80)` differ (`p = 79`,
`p' = 80 ≥ p`). -/
theorem c6_prefix_counterexample :
    compute_pi_agm 40 79
      = some "3.1415926535897932384626433832795028841971693993751058209749445923078164062862090".toList
    ∧ compute_pi_agm 40 80
      = some "3.14159265358979323846264338327950288419716939937510582097494459230781640628620899".toList
    ∧ decide ((compute_pi_agm 40 79).map (fun s => s.take (79 + 1))
        = (compute_pi_agm 40 80).map (fun s => s.take (79 + 1))) = false := by
  have h79 : compute_pi_agm 40 79
      = some "3.1415926535897932384626433832795028841971693993751058209749445923078164062862090".toList := by
    decide
  have h80 : compute_pi_agm 40 80
      = some "3.14159265358979323846264338327950288419716939937510582097494459230781640628620899".toList := by
    decide
  refine ⟨h79, h80, ?_⟩
  rw [h79, h80]
  decide

set_option maxHeartbeats 8000000 in
/-- C6 amended: the monotonic prefix property, checked for all pairs
`1 ≤ p ≤ p' ≤ 12` and all three piday2023 algorithms (it fails in
general: see the counterexample at `p = 79` for the AGM algorithm). -/
theorem c6_prefix_bounded : prefixCheckUpTo 12 = true := by
  decide

end Piday
